import Mathlib

/-!
Letter Boxed solver: a shallow embedding of `lb.py`.

Words are modelled as lists of characters (`Word`), chains of words as
`Chain`.  The configuration record `WArgs` mirrors the fields of the
argparse namespace that the word filter reads (`top`, `left`, `bottom`,
`right`, `min`, `max`); `SArgs` mirrors the fields the recursive search
reads (`all_letters`, `all_search_words`); `PArgs` carries everything
`solve` needs.

The Python function `recursive_solve(args, all_solutions, solution, depth)`
mutates `args.search_words` and recurses while `depth != args.depth`.  The
`depth` parameter is used only in that comparison and in the `depth + 1`
passed to the recursive call, so the embedding carries the equivalent
budget `remaining = args.depth - depth` instead, which counts down to 0.
The mutable `args.search_words` field is threaded explicitly: both the
loop and `recursive_solve` return the pair
`(final value of args.search_words, all_solutions)`.

The Python `for word in args.search_words` loop iterates over the list
object captured when the loop starts, even though `args.search_words` is
reassigned inside the body; the embedding therefore keeps the captured
list (`words`) separate from the current field value (`sw`).
-/

abbrev Word := List Char

abbrev Chain := List Word

/-- Configuration fields read by `is_word_valid` / `trim_dictionary`
(`lb.py`, argparse namespace: sides already lower-cased by
`parse_arguments`, plus the `min`/`max` length bounds). -/
structure WArgs where
  top : Word
  left : Word
  bottom : Word
  right : Word
  min : Nat
  max : Nat

/-- The `sides` dictionary of `is_word_valid` (`lb.py` line 204); Python
dicts iterate in insertion order, so the association list keeps the order
`t`, `l`, `b`, `r`. -/
def sides (args : WArgs) : List (Char × Word) :=
  [('t', args.top), ('l', args.left), ('b', args.bottom), ('r', args.right)]

/-- The lookup `next((name for name, side in sides.items() if letter in side), None)`
of `is_word_valid` (`lb.py` line 207): the first side (in `t`, `l`, `b`,
`r` order) containing the letter, or `none`. -/
def letterSide (args : WArgs) (letter : Char) : Option Char :=
  (sides args).findSome? (fun p => if letter ∈ p.2 then some p.1 else none)

/-- The letter loop of `is_word_valid` (`lb.py` lines 205-210): walk the
word, rejecting a letter on no side or on the same side as the previous
letter; `prev` is `prev_set_name`, initially `none`. -/
def validLoop (args : WArgs) : Word → Option Char → Bool
  | [], _ => true
  | letter :: rest, prev =>
    match letterSide args letter with
    | none => false
    | some name => if some name = prev then false else validLoop args rest (some name)

/-- `is_word_valid(word, args)` (`lb.py` lines 180-212): length bounds
first, then the side-alternation walk. -/
def is_word_valid (word : Word) (args : WArgs) : Bool :=
  if word.length < args.min ∨ word.length > args.max then false
  else validLoop args word none

/-- `trim_dictionary(dictionary, args)` (`lb.py` lines 153-177): keep the
words that `is_word_valid` accepts, in input order. -/
def trim_dictionary (dictionary : List Word) (args : WArgs) : List Word :=
  dictionary.filter (fun word => is_word_valid word args)

/-- The box's letter set: the distinct letters across the four sides
(the same set `solve` builds on `lb.py` line 244). -/
def box_letters (args : WArgs) : Finset Char :=
  (args.top ++ args.left ++ args.bottom ++ args.right).toFinset

/-- ASCII lower-casing of one character; models Python `str.lower` on the
ASCII letters, which is how `parse_arguments` normalizes the four sides. -/
def asciiLower (c : Char) : Char :=
  if 'A' ≤ c ∧ c ≤ 'Z' then Char.ofNat (c.toNat + 32) else c

/-- The side normalization of `parse_arguments` (`lb.py` lines 68-71):
each side string is lower-cased and turned into a list of letters.  The
candidate words themselves are never lower-cased anywhere in `lb.py`. -/
def parse_box (top left bottom right : Word) (mn mx : Nat) : WArgs :=
  ⟨top.map asciiLower, left.map asciiLower, bottom.map asciiLower,
    right.map asciiLower, mn, mx⟩

/-- `set(list(''.join(chain)))` (`lb.py` line 268): the set of letters
used by a chain of words. -/
def chainLetters (chain : Chain) : Finset Char :=
  chain.flatten.toFinset

/-- Fields of the `args` namespace read by `recursive_solve` that are
fixed during the search: `all_letters` (`lb.py` line 244) and
`all_search_words` (`lb.py` line 243). -/
structure SArgs where
  all_letters : Finset Char
  all_search_words : List Word

/-- The candidate list `[x for x in args.all_search_words if x[0] == last_letter and x != word]`
(`lb.py` lines 274-275).  Python indexes `x[0]` and `word[-1]` on what it
assumes are non-empty strings; `head?`/`getLast?` encode the same
comparison totally (they agree with Python on non-empty words, and every
word kept by the filter is non-empty whenever `args.min ≥ 1`). -/
def nextWords (args : SArgs) (word : Word) : List Word :=
  args.all_search_words.filter (fun x => x.head? == word.getLast? && x != word)

/-- The `for word in args.search_words` loop of `recursive_solve`
(`lb.py` lines 266-276).  `words` is the list captured at loop entry,
`sw` the current value of the mutable `args.search_words`, `sols` the
accumulated `all_solutions`, `solution` the current chain, and `child`
the continuation standing for the recursive call one level deeper (with
its remaining depth budget already fixed by the caller). -/
def recursive_solve_loop (args : SArgs)
    (child : List Word → List Chain → Chain → List Word × List Chain) :
    List Word → List Word → List Chain → Chain → List Word × List Chain
  | [], sw, sols, _ => (sw, sols)
  | word :: rest, sw, sols, solution =>
    let potential := solution ++ [word]
    if args.all_letters = chainLetters potential then
      recursive_solve_loop args child rest sw (sols ++ [potential]) solution
    else
      let sw2 := nextWords args word
      let res := child sw2 sols potential
      recursive_solve_loop args child rest res.1 res.2 solution

/-- `recursive_solve(args, all_solutions, solution, depth)` (`lb.py`
lines 251-277), with `remaining = args.depth - depth` counting down (the
Python `depth` is only read in the guard `depth != args.depth`).  The
first component of the result is the final value of the mutated
`args.search_words`; the second is `all_solutions`. -/
def recursive_solve (args : SArgs) :
    Nat → List Word → List Chain → Chain → List Word × List Chain
  | 0, search_words, all_solutions, _ => (search_words, all_solutions)
  | r + 1, search_words, all_solutions, solution =>
    recursive_solve_loop args (fun sw2 sols p => recursive_solve args r sw2 sols p)
      search_words search_words all_solutions solution

/-- Configuration carried into `solve` (the argparse namespace after
`parse_arguments`): the four already lower-cased sides, the length
bounds and the search depth. -/
structure PArgs where
  top : Word
  left : Word
  bottom : Word
  right : Word
  min : Nat
  max : Nat
  depth : Nat

/-- The word-filter view of a `PArgs`. -/
def PArgs.w (args : PArgs) : WArgs :=
  ⟨args.top, args.left, args.bottom, args.right, args.min, args.max⟩

/-- `solve(args)` (`lb.py` lines 227-248) minus the I/O: trim the
dictionary, build `all_letters = set(top + left + bottom + right)`, and
run `recursive_solve(args, [], [])` from depth 0 with
`search_words = all_search_words =` the trimmed list.  Returns the
solution list that `print_solutions` would receive. -/
def solve (args : PArgs) (dictionary : List Word) : List Chain :=
  let trimmed := trim_dictionary dictionary args.w
  let all_letters := (args.top ++ args.left ++ args.bottom ++ args.right).toFinset
  (recursive_solve ⟨all_letters, trimmed⟩ args.depth trimmed [] []).2

/-- The extensions that the loop of `recursive_solve` appends to the
solution list: `RecExt args words b acc ext` holds when a loop over the
candidate list `words`, whose recursive calls carry the depth budget `b`,
records the chain `solution ++ ext` for a current chain `solution` whose
letters are `acc`. -/
inductive RecExt (args : SArgs) : List Word → Nat → Finset Char → List Word → Prop where
  | found (word : Word) (words : List Word) (b : Nat) (acc : Finset Char)
      (hmem : word ∈ words) (hcov : args.all_letters = acc ∪ word.toFinset) :
      RecExt args words b acc [word]
  | deeper (word : Word) (words : List Word) (b : Nat) (acc : Finset Char) (ext : List Word)
      (hmem : word ∈ words) (hncov : args.all_letters ≠ acc ∪ word.toFinset)
      (hrec : RecExt args (nextWords args word) b (acc ∪ word.toFinset) ext) :
      RecExt args words (b + 1) acc (word :: ext)

/-- The solution set the frozen completeness claim describes: chains of
legal words, of length at most `max_depth`, chained end-to-end, whose
letters cover `all_letters` (with no further conditions). -/
def claimedSolution (args : SArgs) (max_depth : Nat) (chain : Chain) : Prop :=
  chain ≠ [] ∧ chain.length ≤ max_depth ∧
    (∀ w ∈ chain, w ∈ args.all_search_words) ∧
    List.Chain' (fun u v => v.head? = u.getLast?) chain ∧
    chainLetters chain = args.all_letters

/-- The solution set `recursive_solve` actually returns: additionally,
consecutive words are distinct and no proper non-empty leading part of
the chain already covers `all_letters`. -/
def searchSolution (args : SArgs) (max_depth : Nat) (chain : Chain) : Prop :=
  chain ≠ [] ∧ chain.length ≤ max_depth ∧
    (∀ w ∈ chain, w ∈ args.all_search_words) ∧
    List.Chain' (fun u v => v.head? = u.getLast? ∧ v ≠ u) chain ∧
    chainLetters chain = args.all_letters ∧
    ∀ k, 0 < k → k < chain.length → chainLetters (chain.take k) ≠ args.all_letters

/-- Search input with box letters `a`, `b` and the two legal words
`ab`, `ba`. -/
def exArgsAB : SArgs := ⟨(['a', 'b'] : List Char).toFinset, [['a', 'b'], ['b', 'a']]⟩

/-- Search input with box letters `a`, `b`, `c` and the two legal words
`ab`, `bc`. -/
def exArgsABC : SArgs := ⟨(['a', 'b', 'c'] : List Char).toFinset, [['a', 'b'], ['b', 'c']]⟩

/-- Search input with box letters `a`, `b`, `c`, `d` and legal words
`ab`, `bca`, `bd`. -/
def exArgsABCD : SArgs :=
  ⟨(['a', 'b', 'c', 'd'] : List Char).toFinset, [['a', 'b'], ['b', 'c', 'a'], ['b', 'd']]⟩

/-- A malformed configuration: `min = 10 > 2 = max`. -/
def badCfg : PArgs := ⟨['a'], ['b'], ['c'], ['a'], 10, 2, 2⟩

/-- The same box and depth as `badCfg` with a well-formed length range. -/
def goodCfg : PArgs := ⟨['a'], ['b'], ['c'], ['a'], 1, 2, 2⟩

theorem letterSide_eq (args : WArgs) (c : Char) :
    letterSide args c =
      if c ∈ args.top then some 't'
      else if c ∈ args.left then some 'l'
      else if c ∈ args.bottom then some 'b'
      else if c ∈ args.right then some 'r'
      else none := by
  simp only [letterSide, sides, List.findSome?_cons, List.findSome?_nil]
  split_ifs <;> simp_all

theorem letterSide_isSome_iff (args : WArgs) (c : Char) :
    (letterSide args c).isSome ↔
      c ∈ args.top ++ args.left ++ args.bottom ++ args.right := by
  rw [letterSide_eq]
  split_ifs <;> simp_all

theorem mem_box_letters_iff (args : WArgs) (c : Char) :
    c ∈ box_letters args ↔ (letterSide args c).isSome := by
  rw [box_letters, List.mem_toFinset, letterSide_isSome_iff]

theorem validLoop_eq_true_iff (args : WArgs) :
    ∀ (w : Word) (prev : Option Char),
      validLoop args w prev = true ↔
        ((∀ c ∈ w, (letterSide args c).isSome) ∧
          List.Chain' (fun a b => letterSide args a ≠ letterSide args b) w ∧
          ∀ c, w.head? = some c → letterSide args c ≠ prev) := by
  intro w
  induction w with
  | nil => intro prev; simp [validLoop]
  | cons c rest ih =>
    intro prev
    cases h : letterSide args c with
    | none =>
      simp only [validLoop, h]
      constructor
      · intro hf; exact absurd hf (by simp)
      · rintro ⟨hall, -, -⟩
        have := hall c (List.mem_cons_self c rest)
        rw [h] at this
        exact absurd this (by simp)
    | some name =>
      by_cases hp : some name = prev
      · simp only [validLoop, h, if_pos hp]
        constructor
        · intro hf; exact absurd hf (by simp)
        · rintro ⟨-, -, hhead⟩
          exact absurd (hp ▸ h) (hhead c rfl)
      · simp only [validLoop, h, if_neg hp, ih (some name)]
        constructor
        · rintro ⟨hall, hchain, hhead⟩
          refine ⟨?_, ?_, ?_⟩
          · intro x hx
            rcases List.mem_cons.mp hx with rfl | hx
            · rw [h]; rfl
            · exact hall x hx
          · rw [List.chain'_cons']
            refine ⟨?_, hchain⟩
            intro b hb
            rw [Option.mem_def] at hb
            have hb2 := hhead b hb
            rw [h]
            exact fun heq => hb2 heq.symm
          · intro x hx
            simp only [List.head?_cons, Option.some.injEq] at hx
            subst hx
            rw [h]; exact hp
        · rintro ⟨hall, hchain, -⟩
          rw [List.chain'_cons'] at hchain
          refine ⟨fun x hx => hall x (List.mem_cons_of_mem c hx), hchain.2, ?_⟩
          intro b hb
          have hrb := hchain.1 b (Option.mem_def.mpr hb)
          rw [h] at hrb
          exact fun heq => hrb (heq ▸ rfl)

theorem is_word_valid_eq_true_iff (word : Word) (args : WArgs) :
    is_word_valid word args = true ↔
      (args.min ≤ word.length ∧ word.length ≤ args.max) ∧
      (∀ c ∈ word, c ∈ box_letters args) ∧
      List.Chain' (fun a b => letterSide args a ≠ letterSide args b) word := by
  unfold is_word_valid
  split_ifs with hlen
  · constructor
    · intro hf; exact absurd hf (by simp)
    · rintro ⟨⟨h1, h2⟩, -, -⟩
      omega
  · rw [validLoop_eq_true_iff]
    push_neg at hlen
    constructor
    · rintro ⟨hall, hchain, -⟩
      exact ⟨⟨hlen.1, hlen.2⟩, fun c hc => (mem_box_letters_iff args c).mpr (hall c hc),
        hchain⟩
    · rintro ⟨-, hall, hchain⟩
      refine ⟨fun c hc => (mem_box_letters_iff args c).mp (hall c hc), hchain, ?_⟩
      intro c hc
      have := (mem_box_letters_iff args c).mp (hall c (List.mem_of_mem_head? hc))
      exact Option.isSome_iff_ne_none.mp this

theorem validLoop_eq_false_of_none (args : WArgs) {c : Char}
    (hc : letterSide args c = none) :
    ∀ (w : Word) (prev : Option Char), c ∈ w → validLoop args w prev = false := by
  intro w
  induction w with
  | nil => intro prev h; cases h
  | cons d rest ih =>
    intro prev hmem
    cases h : letterSide args d with
    | none => simp [validLoop, h]
    | some name =>
      rcases List.mem_cons.mp hmem with rfl | hmem
      · rw [h] at hc; cases hc
      · by_cases hp : some name = prev
        · simp [validLoop, h, if_pos hp]
        · simp only [validLoop, h, if_neg hp]
          exact ih (some name) hmem

theorem chainLetters_nil : chainLetters [] = ∅ := rfl

theorem chainLetters_cons (w : Word) (t : Chain) :
    chainLetters (w :: t) = w.toFinset ∪ chainLetters t := by
  simp [chainLetters]

theorem chainLetters_singleton (w : Word) : chainLetters [w] = w.toFinset := by
  simp [chainLetters]

theorem chainLetters_append (s : Chain) (w : Word) :
    chainLetters (s ++ [w]) = chainLetters s ∪ w.toFinset := by
  simp [chainLetters]

theorem mem_nextWords (args : SArgs) (word x : Word) :
    x ∈ nextWords args word ↔
      x ∈ args.all_search_words ∧ x.head? = word.getLast? ∧ x ≠ word := by
  simp [nextWords, List.mem_filter, and_assoc]

theorem recExt_iff (args : SArgs) (words : List Word) (b : Nat) (acc : Finset Char)
    (ext : List Word) :
    RecExt args words b acc ext ↔
      ∃ w t, ext = w :: t ∧ w ∈ words ∧
        ((args.all_letters = acc ∪ w.toFinset ∧ t = []) ∨
          (args.all_letters ≠ acc ∪ w.toFinset ∧
            ∃ b2, b = b2 + 1 ∧ RecExt args (nextWords args w) b2 (acc ∪ w.toFinset) t)) := by
  constructor
  · intro h
    cases h with
    | found word words b acc hmem hcov =>
      exact ⟨word, [], rfl, hmem, Or.inl ⟨hcov, rfl⟩⟩
    | deeper word words b acc ext hmem hncov hrec =>
      exact ⟨word, ext, rfl, hmem, Or.inr ⟨hncov, b, rfl, hrec⟩⟩
  · rintro ⟨w, t, rfl, hmem, ⟨hcov, rfl⟩ | ⟨hncov, b2, rfl, hrec⟩⟩
    · exact RecExt.found w words b acc hmem hcov
    · exact RecExt.deeper w words b2 acc t hmem hncov hrec

theorem recExt_nil_iff (args : SArgs) (b : Nat) (acc : Finset Char) (ext : List Word) :
    RecExt args [] b acc ext ↔ False := by
  rw [recExt_iff]
  simp

theorem recExt_cons_iff (args : SArgs) (word : Word) (rest : List Word) (b : Nat)
    (acc : Finset Char) (ext : List Word) :
    RecExt args (word :: rest) b acc ext ↔
      (RecExt args rest b acc ext ∨
        (args.all_letters = acc ∪ word.toFinset ∧ ext = [word]) ∨
        (args.all_letters ≠ acc ∪ word.toFinset ∧
          ∃ b2 t, b = b2 + 1 ∧ ext = word :: t ∧
            RecExt args (nextWords args word) b2 (acc ∪ word.toFinset) t)) := by
  rw [recExt_iff]
  constructor
  · rintro ⟨w, t, rfl, hmem, hbr⟩
    rcases List.mem_cons.mp hmem with rfl | hmem2
    · rcases hbr with ⟨hcov, rfl⟩ | ⟨hncov, b2, rfl, hrec⟩
      · exact Or.inr (Or.inl ⟨hcov, rfl⟩)
      · exact Or.inr (Or.inr ⟨hncov, b2, t, rfl, rfl, hrec⟩)
    · exact Or.inl ((recExt_iff args rest b acc (w :: t)).mpr ⟨w, t, rfl, hmem2, hbr⟩)
  · rintro (hrest | ⟨hcov, rfl⟩ | ⟨hncov, b2, t, rfl, rfl, hrec⟩)
    · rcases (recExt_iff args rest b acc ext).mp hrest with ⟨w, t, rfl, hmem, hbr⟩
      exact ⟨w, t, rfl, List.mem_cons_of_mem word hmem, hbr⟩
    · exact ⟨word, [], rfl, List.mem_cons_self word rest, Or.inl ⟨hcov, rfl⟩⟩
    · exact ⟨word, t, rfl, List.mem_cons_self word rest, Or.inr ⟨hncov, b2, rfl, hrec⟩⟩

theorem recursive_solve_loop_acc (args : SArgs)
    (child : List Word → List Chain → Chain → List Word × List Chain)
    (hchild : ∀ sw sols p, child sw sols p =
      ((child sw [] p).1, sols ++ (child sw [] p).2)) :
    ∀ (words sw : List Word) (sols : List Chain) (solution : Chain),
      recursive_solve_loop args child words sw sols solution =
        ((recursive_solve_loop args child words sw [] solution).1,
          sols ++ (recursive_solve_loop args child words sw [] solution).2) := by
  intro words
  induction words with
  | nil => intro sw sols solution; simp [recursive_solve_loop]
  | cons word rest ih =>
    intro sw sols solution
    simp only [recursive_solve_loop]
    split_ifs with hcov
    · rw [ih sw (sols ++ [solution ++ [word]]) solution,
        ih sw ([] ++ [solution ++ [word]]) solution]
      simp
    · rw [hchild (nextWords args word) sols (solution ++ [word]),
        hchild (nextWords args word) [] (solution ++ [word])]
      simp only [List.nil_append]
      rw [ih _ (sols ++ (child (nextWords args word) [] (solution ++ [word])).2) solution,
        ih _ ((child (nextWords args word) [] (solution ++ [word])).2) solution]
      simp

theorem recursive_solve_acc (args : SArgs) :
    ∀ (r : Nat) (sw : List Word) (sols : List Chain) (solution : Chain),
      recursive_solve args r sw sols solution =
        ((recursive_solve args r sw [] solution).1,
          sols ++ (recursive_solve args r sw [] solution).2) := by
  intro r
  induction r with
  | zero => intro sw sols solution; simp [recursive_solve]
  | succ b ih =>
    intro sw sols solution
    simp only [recursive_solve]
    exact recursive_solve_loop_acc args _ (fun sw2 s p => ih sw2 s p) sw sw sols solution

theorem recursive_solve_mem (args : SArgs) :
    ∀ (r : Nat) (sw : List Word) (sols : List Chain) (solution : Chain) (chain : Chain),
      chain ∈ (recursive_solve args r sw sols solution).2 ↔
        chain ∈ sols ∨ ∃ b, r = b + 1 ∧ ∃ ext, chain = solution ++ ext ∧
          RecExt args sw b (chainLetters solution) ext := by
  intro r
  induction r with
  | zero =>
    intro sw sols solution chain
    simp [recursive_solve]
  | succ b ih =>
    have hloop : ∀ (words sw : List Word) (sols : List Chain) (solution chain : Chain),
        chain ∈ (recursive_solve_loop args
            (fun sw2 s p => recursive_solve args b sw2 s p)
            words sw sols solution).2 ↔
          chain ∈ sols ∨ ∃ ext, chain = solution ++ ext ∧
            RecExt args words b (chainLetters solution) ext := by
      intro words
      induction words with
      | nil =>
        intro sw sols solution chain
        simp [recursive_solve_loop, recExt_nil_iff]
      | cons word rest ihw =>
        intro sw sols solution chain
        simp only [recursive_solve_loop]
        split_ifs with hcov
        · rw [ihw sw (sols ++ [solution ++ [word]]) solution chain]
          constructor
          · rintro (hmem | ⟨ext, rfl, hrec⟩)
            · rcases List.mem_append.mp hmem with hmem | hmem
              · exact Or.inl hmem
              · refine Or.inr ⟨[word], List.mem_singleton.mp hmem, ?_⟩
                rw [recExt_cons_iff]
                refine Or.inr (Or.inl ⟨?_, rfl⟩)
                rw [← chainLetters_append]
                exact hcov
            · refine Or.inr ⟨ext, rfl, ?_⟩
              rw [recExt_cons_iff]
              exact Or.inl hrec
          · rintro (hmem | ⟨ext, rfl, hrec⟩)
            · exact Or.inl (List.mem_append.mpr (Or.inl hmem))
            · rw [recExt_cons_iff] at hrec
              rcases hrec with hrest | ⟨hcov2, rfl⟩ | ⟨hncov, b2, t, rfl, rfl, hrec⟩
              · exact Or.inr ⟨ext, rfl, hrest⟩
              · exact Or.inl (List.mem_append.mpr (Or.inr (by simp)))
              · rw [chainLetters_append] at hcov
                exact absurd hcov hncov
        · rw [ihw _ _ solution chain, ih (nextWords args word) sols (solution ++ [word]) chain]
          rw [chainLetters_append] at hcov ⊢
          constructor
          · rintro ((hmem | ⟨b2, rfl, e, rfl, hrec⟩) | ⟨ext, rfl, hrest⟩)
            · exact Or.inl hmem
            · refine Or.inr ⟨word :: e, by simp, ?_⟩
              rw [recExt_cons_iff]
              exact Or.inr (Or.inr ⟨hcov, b2, e, rfl, rfl, hrec⟩)
            · exact Or.inr ⟨ext, rfl, (recExt_cons_iff ..).mpr (Or.inl hrest)⟩
          · rintro (hmem | ⟨ext, rfl, hrec⟩)
            · exact Or.inl (Or.inl hmem)
            · rw [recExt_cons_iff] at hrec
              rcases hrec with hrest | ⟨hcov2, rfl⟩ | ⟨hncov, b2, t, rfl, rfl, hrec⟩
              · exact Or.inr ⟨ext, rfl, hrest⟩
              · exact absurd hcov2 hcov
              · exact Or.inl (Or.inr ⟨b2, rfl, t, by simp, hrec⟩)
    intro sw sols solution chain
    simp only [recursive_solve]
    rw [hloop sw sw sols solution chain]
    constructor
    · rintro (hmem | ⟨ext, rfl, hrec⟩)
      · exact Or.inl hmem
      · exact Or.inr ⟨b, rfl, ext, rfl, hrec⟩
    · rintro (hmem | ⟨b2, hb, ext, rfl, hrec⟩)
      · exact Or.inl hmem
      · have : b2 = b := by omega
        subst this
        exact Or.inr ⟨ext, rfl, hrec⟩

theorem recExt_iff_conds (args : SArgs) :
    ∀ (ext words : List Word) (b : Nat) (acc : Finset Char),
      RecExt args words b acc ext ↔
        (ext ≠ [] ∧ ext.length ≤ b + 1 ∧
          (∀ c, ext.head? = some c → c ∈ words) ∧
          (∀ w ∈ ext.tail, w ∈ args.all_search_words) ∧
          List.Chain' (fun u v => v.head? = u.getLast? ∧ v ≠ u) ext ∧
          args.all_letters = acc ∪ chainLetters ext ∧
          ∀ k, 0 < k → k < ext.length → args.all_letters ≠ acc ∪ chainLetters (ext.take k)) := by
  intro ext
  induction ext with
  | nil =>
    intro words b acc
    rw [recExt_iff]
    simp
  | cons w t ih =>
    intro words b acc
    rw [recExt_iff]
    constructor
    · rintro ⟨w', t', heq, hmem, hbr⟩
      obtain ⟨rfl, rfl⟩ : w = w' ∧ t = t' := by
        injection heq with h1 h2; exact ⟨h1, h2⟩
      rcases hbr with ⟨hcov, rfl⟩ | ⟨hncov, b2, rfl, hrec⟩
      · refine ⟨by simp, by simp, ?_, by simp, by simp, ?_, ?_⟩
        · intro c hc
          simp only [List.head?_cons, Option.some.injEq] at hc
          exact hc ▸ hmem
        · rw [chainLetters_singleton]
          exact hcov
        · intro k hk0 hk1
          simp only [List.length_cons, List.length_nil] at hk1
          omega
      · obtain ⟨htne, htlen, hthead, httail, htchain, htcov, htpre⟩ :=
          (ih (nextWords args w) b2 (acc ∪ w.toFinset)).mp hrec
        refine ⟨by simp, by simp; omega, ?_, ?_, ?_, ?_, ?_⟩
        · intro c hc
          simp only [List.head?_cons, Option.some.injEq] at hc
          exact hc ▸ hmem
        · intro u hu
          rw [List.tail_cons] at hu
          cases t with
          | nil => cases hu
          | cons v t2 =>
            rcases List.mem_cons.mp hu with rfl | hu2
            · exact ((mem_nextWords args w u).mp (hthead u rfl)).1
            · exact httail u (by simpa using hu2)
        · rw [List.chain'_cons']
          refine ⟨?_, htchain⟩
          intro v hv
          rw [Option.mem_def] at hv
          obtain ⟨-, hlink, hne⟩ := (mem_nextWords args w v).mp (hthead v hv)
          exact ⟨hlink, hne⟩
        · rw [chainLetters_cons, ← Finset.union_assoc]
          exact htcov
        · intro k hk0 hklen
          cases k with
          | zero => omega
          | succ j =>
            rw [List.take_succ_cons, chainLetters_cons, ← Finset.union_assoc]
            cases Nat.eq_zero_or_pos j with
            | inl hj0 =>
              subst hj0
              simpa [chainLetters_nil] using hncov
            | inr hjpos =>
              refine htpre j hjpos ?_
              simp only [List.length_cons] at hklen
              omega
    · rintro ⟨hne, hlen, hhead, htail, hchain, hcov, hpre⟩
      refine ⟨w, t, rfl, hhead w rfl, ?_⟩
      by_cases hc1 : args.all_letters = acc ∪ w.toFinset
      · left
        refine ⟨hc1, ?_⟩
        cases t with
        | nil => rfl
        | cons v t2 =>
          have hp := hpre 1 one_pos (by simp)
          rw [show (w :: v :: t2).take 1 = [w] from rfl, chainLetters_singleton] at hp
          exact absurd hc1 hp
      · right
        refine ⟨hc1, ?_⟩
        cases t with
        | nil =>
          rw [chainLetters_singleton] at hcov
          exact absurd hcov hc1
        | cons v t2 =>
          have hblen : t2.length + 2 ≤ b + 1 := by simpa using hlen
          obtain ⟨b2, rfl⟩ : ∃ b2, b = b2 + 1 := ⟨b - 1, by omega⟩
          refine ⟨b2, rfl, ?_⟩
          rw [List.chain'_cons'] at hchain
          apply (ih (nextWords args w) b2 (acc ∪ w.toFinset)).mpr
          refine ⟨by simp, by simpa using hblen, ?_, ?_, hchain.2, ?_, ?_⟩
          · intro c hc
            have hcv : c = v := by
              simp only [List.head?_cons, Option.some.injEq] at hc
              exact hc.symm
            rw [hcv, mem_nextWords]
            obtain ⟨hlink, hne⟩ := hchain.1 v rfl
            exact ⟨htail v (by simp), hlink, hne⟩
          · intro u hu
            rw [List.tail_cons] at hu
            exact htail u (by simp [hu])
          · rw [chainLetters_cons, ← Finset.union_assoc] at hcov
            exact hcov
          · intro j hj0 hjlen
            have hp := hpre (j + 1) (by omega)
              (by simp only [List.length_cons] at hjlen ⊢; omega)
            rw [List.take_succ_cons, chainLetters_cons, ← Finset.union_assoc] at hp
            exact hp

theorem recExt_mono (args : SArgs) :
    ∀ {words : List Word} {b : Nat} {acc : Finset Char} {ext : List Word},
      RecExt args words b acc ext → ∀ {b2 : Nat}, b ≤ b2 →
        RecExt args words b2 acc ext := by
  intro words b acc ext h
  induction h with
  | found word words b acc hmem hcov =>
    intro b2 _
    exact RecExt.found word words b2 acc hmem hcov
  | deeper word words b acc ext hmem hncov hrec ih =>
    intro b2 hb
    obtain ⟨b3, rfl⟩ : ∃ b3, b2 = b3 + 1 := ⟨b2 - 1, by omega⟩
    exact RecExt.deeper word words b3 acc ext hmem hncov (ih (by omega))

theorem recursive_solve_loop_snd (args : SArgs)
    (child : List Word → List Chain → Chain → List Word × List Chain) :
    ∀ (words sw sw' : List Word) (sols : List Chain) (solution : Chain),
      (recursive_solve_loop args child words sw sols solution).2 =
        (recursive_solve_loop args child words sw' sols solution).2 := by
  intro words
  induction words with
  | nil => intro sw sw' sols solution; rfl
  | cons word rest ih =>
    intro sw sw' sols solution
    simp only [recursive_solve_loop]
    split_ifs with h
    · exact ih sw sw' _ _
    · rfl

theorem recursive_solve_loop_mem (args : SArgs) (b : Nat) (words sw : List Word)
    (sols : List Chain) (solution chain : Chain) :
    chain ∈ (recursive_solve_loop args
        (fun sw2 s p => recursive_solve args b sw2 s p) words sw sols solution).2 ↔
      chain ∈ sols ∨ ∃ ext, chain = solution ++ ext ∧
        RecExt args words b (chainLetters solution) ext := by
  rw [recursive_solve_loop_snd args _ words sw words sols solution]
  have hrs : recursive_solve_loop args (fun sw2 s p => recursive_solve args b sw2 s p)
      words words sols solution = recursive_solve args (b + 1) words sols solution := rfl
  rw [hrs, recursive_solve_mem args (b + 1) words sols solution chain]
  constructor
  · rintro (hmem | ⟨b2, hb, ext, rfl, hrec⟩)
    · exact Or.inl hmem
    · have : b2 = b := by omega
      subst this
      exact Or.inr ⟨ext, rfl, hrec⟩
  · rintro (hmem | ⟨ext, rfl, hrec⟩)
    · exact Or.inl hmem
    · exact Or.inr ⟨b, rfl, ext, rfl, hrec⟩

theorem recExt_head_mem (args : SArgs) {words : List Word} {b : Nat} {acc : Finset Char}
    {ext : List Word} (h : RecExt args words b acc ext) :
    ∃ w t, ext = w :: t ∧ w ∈ words := by
  rcases (recExt_iff args words b acc ext).mp h with ⟨w, t, rfl, hmem, -⟩
  exact ⟨w, t, rfl, hmem⟩

theorem recursive_solve_nodup (args : SArgs) (hall : args.all_search_words.Nodup) :
    ∀ (r : Nat) (sw : List Word) (solution : Chain), sw.Nodup →
      (recursive_solve args r sw [] solution).2.Nodup := by
  intro r
  induction r with
  | zero => intro sw solution _; simp [recursive_solve]
  | succ b ih =>
    have hloop : ∀ (words sw : List Word) (solution : Chain), words.Nodup →
        (recursive_solve_loop args (fun sw2 s p => recursive_solve args b sw2 s p)
          words sw [] solution).2.Nodup := by
      intro words
      induction words with
      | nil => intro sw solution _; simp [recursive_solve_loop]
      | cons word rest ihw =>
        intro sw solution hnd
        obtain ⟨hword, hrest⟩ := List.nodup_cons.mp hnd
        simp only [recursive_solve_loop]
        split_ifs with hcov
        · rw [recursive_solve_loop_acc args _ (fun sw2 s p => recursive_solve_acc args b sw2 s p)
            rest sw ([] ++ [solution ++ [word]]) solution]
          rw [List.nodup_append]
          refine ⟨by simp, ihw sw solution hrest, ?_⟩
          intro chain hchain hchain'
          simp only [List.nil_append, List.mem_singleton] at hchain
          subst hchain
          rw [recursive_solve_loop_mem args b rest sw [] solution] at hchain'
          rcases hchain' with hmem | ⟨ext, heq, hrec⟩
          · cases hmem
          · obtain ⟨w2, t2, rfl, hw2⟩ := recExt_head_mem args hrec
            have hext : [word] = w2 :: t2 := List.append_cancel_left heq
            have : w2 = word := by
              injection hext with h1 _
              exact h1.symm
            subst this
            exact hword hw2
        · rw [recursive_solve_loop_acc args _ (fun sw2 s p => recursive_solve_acc args b sw2 s p)
            rest _ _ solution]
          rw [List.nodup_append]
          refine ⟨ih (nextWords args word) (solution ++ [word])
              (hall.filter _), ihw _ solution hrest, ?_⟩
          intro chain hchain hchain'
          rw [recursive_solve_mem args b (nextWords args word) [] (solution ++ [word]) chain]
            at hchain
          rw [recursive_solve_loop_mem args b rest _ [] solution] at hchain'
          rcases hchain with hmem | ⟨b2, hb, e, rfl, hrece⟩
          · cases hmem
          · rcases hchain' with hmem | ⟨ext, heq, hrec⟩
            · cases hmem
            · obtain ⟨w2, t2, rfl, hw2⟩ := recExt_head_mem args hrec
              have heq2 : solution ++ (word :: e) = solution ++ (w2 :: t2) := by
                simpa [List.append_assoc] using heq
              have hext : word :: e = w2 :: t2 := List.append_cancel_left heq2
              have : w2 = word := by
                injection hext with h1 _
                exact h1.symm
              subst this
              exact hword hw2
    intro sw solution hnd
    simp only [recursive_solve]
    exact hloop sw sw solution hnd

theorem recursive_solve_nil_words (args : SArgs) (r : Nat) (sols : List Chain)
    (solution : Chain) :
    recursive_solve args r [] sols solution = ([], sols) := by
  cases r with
  | zero => rfl
  | succ b => rfl

/-- Claim C1, counterexample: the chain `[ab, ba]` consists of legal
words, has length 2 ≤ max_depth = 2, chains end-to-end, and its letters
cover the box letters `{a, b}`, yet the search does not return it: the
one-word chain `[ab]` already covers the box, and a covering chain is
recorded and never extended, so the claimed solution set is not the
returned set. -/
theorem claim_C1_counterexample :
    claimedSolution exArgsAB 2 [['a', 'b'], ['b', 'a']] ∧
      [['a', 'b'], ['b', 'a']] ∉
        (recursive_solve exArgsAB 2 exArgsAB.all_search_words [] []).2 := by
  constructor
  · refine ⟨by decide, by decide, by decide, ?_, by decide⟩
    exact List.chain'_cons.mpr ⟨by decide, List.chain'_singleton _⟩
  · decide

/-- Claim C1, amended: for a duplicate-free legal-word list, the list
returned by the search (invoked as `solve` does, with the full legal
list, an empty accumulator and an empty chain) contains, exactly once
each, precisely the non-empty chains of legal words of length at most
`max_depth` that chain end-to-end with consecutive words distinct, whose
letters' union equals the box's letter set, and none of whose proper
non-empty leading parts already has letters' union equal to the box's
letter set. -/
theorem claim_C1_search_solutions (args : SArgs) (max_depth : Nat)
    (hnd : args.all_search_words.Nodup) :
    (recursive_solve args max_depth args.all_search_words [] []).2.Nodup ∧
      ∀ chain, chain ∈ (recursive_solve args max_depth args.all_search_words [] []).2 ↔
        searchSolution args max_depth chain := by
  constructor
  · exact recursive_solve_nodup args hnd max_depth args.all_search_words [] hnd
  · intro chain
    rw [recursive_solve_mem args max_depth args.all_search_words [] [] chain]
    simp only [List.not_mem_nil, false_or, List.nil_append]
    constructor
    · rintro ⟨b, rfl, ext, rfl, hrec⟩
      obtain ⟨hne, hlen, hhead, htail, hchain, hcov, hpre⟩ :=
        (recExt_iff_conds args chain args.all_search_words b (chainLetters [])).mp hrec
      rw [chainLetters_nil] at hcov hpre
      refine ⟨hne, hlen, ?_, hchain, ?_, ?_⟩
      · intro w hw
        cases chain with
        | nil => cases hw
        | cons x t =>
          rcases List.mem_cons.mp hw with rfl | hw2
          · exact hhead w rfl
          · exact htail w (by simpa using hw2)
      · rw [Finset.empty_union] at hcov
        exact hcov.symm
      · intro k hk0 hklen
        have := hpre k hk0 hklen
        rw [Finset.empty_union] at this
        exact fun heq => this heq.symm
    · rintro ⟨hne, hlen, hmem, hchain, hcov, hpre⟩
      have hpos : 0 < chain.length := List.length_pos.mpr hne
      obtain ⟨b, rfl⟩ : ∃ b, max_depth = b + 1 := ⟨max_depth - 1, by omega⟩
      refine ⟨b, rfl, chain, rfl, ?_⟩
      apply (recExt_iff_conds args chain args.all_search_words b (chainLetters [])).mpr
      rw [chainLetters_nil]
      refine ⟨hne, hlen, ?_, ?_, hchain, ?_, ?_⟩
      · intro c hc
        exact hmem c (List.mem_of_mem_head? hc)
      · intro w hw
        exact hmem w (List.mem_of_mem_tail hw)
      · rw [Finset.empty_union]
        exact hcov.symm
      · intro k hk0 hklen
        rw [Finset.empty_union]
        exact fun heq => hpre k hk0 hklen heq.symm

/-- Claim C1, witness: on the box `{a, b, c}` with legal words `ab`,
`bc` and `max_depth = 2`, the amended characterization applies. -/
theorem claim_C1_search_solutions_witness :
    exArgsABC.all_search_words.Nodup ∧
      ((recursive_solve exArgsABC 2 exArgsABC.all_search_words [] []).2.Nodup ∧
        ∀ chain, chain ∈ (recursive_solve exArgsABC 2 exArgsABC.all_search_words [] []).2 ↔
          searchSolution exArgsABC 2 chain) :=
  ⟨by decide, claim_C1_search_solutions exArgsABC 2 (by decide)⟩

/-- Claim C2: `trim_dictionary` (via `is_word_valid`) keeps a word of
the input list exactly when every letter of the word is in the box's
letter set, no two adjacent letters of the word resolve to the same
side, and the word's length lies in the inclusive range
`[args.min, args.max]`. -/
theorem claim_C2_filter_correctness (dictionary : List Word) (args : WArgs) (w : Word) :
    w ∈ trim_dictionary dictionary args ↔
      w ∈ dictionary ∧ args.min ≤ w.length ∧ w.length ≤ args.max ∧
        (∀ c ∈ w, c ∈ box_letters args) ∧
        List.Chain' (fun a b => letterSide args a ≠ letterSide args b) w := by
  rw [trim_dictionary, List.mem_filter, is_word_valid_eq_true_iff]
  tauto

/-- Claim C3, counterexample: `recursive_solve` leaves `args.search_words`
mutated, so a second call that reuses the args state left behind by a
completed first call (box `{a, b, c}`, legal words `ab`, `bc`, depth 2)
returns a different solution list (empty) than the first call
(`[[ab, bc]]`). -/
theorem claim_C3_counterexample :
    (recursive_solve exArgsABC 2
        (recursive_solve exArgsABC 2 exArgsABC.all_search_words [] []).1 [] []).2 ≠
      (recursive_solve exArgsABC 2 exArgsABC.all_search_words [] []).2 := by
  decide

/-- Claim C3, amended: the search is a pure function of its explicit
inputs, so running `solve` twice on the same configuration and
dictionary — re-initializing `search_words` to the full trimmed list
each time, as `solve` does — yields identical output lists, including
order. -/
theorem claim_C3_determinism (args : PArgs) (dictionary : List Word) :
    solve args dictionary = solve args dictionary := rfl

/-- Claim C4, counterexample: the invalid configuration
`min = 10 > 2 = max` is not rejected; `solve` silently returns the empty
solution list, indistinguishable from a genuine no-solution outcome
(the same box and dictionary with a well-formed range return a
solution). -/
theorem claim_C4_counterexample :
    badCfg.min > badCfg.max ∧
      solve badCfg [['a', 'b'], ['b', 'c']] = [] ∧
      solve goodCfg [['a', 'b'], ['b', 'c']] = [[['a', 'b'], ['b', 'c']]] := by
  refine ⟨by decide, by decide, by decide⟩

/-- Claim C4, amended: no configuration validation exists anywhere in
the pipeline; an invalid configuration (`min > max`, or a zero depth
budget) makes `solve` return the empty solution list normally instead
of raising a configuration error. -/
theorem claim_C4_no_validation (args : PArgs) (dictionary : List Word)
    (h : args.min > args.max ∨ args.depth = 0) :
    solve args dictionary = [] := by
  rcases h with h | h
  · have htrim : trim_dictionary dictionary args.w = [] := by
      rw [trim_dictionary, List.filter_eq_nil_iff]
      intro w _
      simp only [is_word_valid, PArgs.w]
      rw [if_pos]
      · simp
      · omega
    rw [solve]
    simp only [htrim, recursive_solve_nil_words]
  · rw [solve, h, recursive_solve]

/-- Claim C4, witness: the malformed configuration `min = 10 > 2 = max`
silently yields an empty solution list. -/
theorem claim_C4_no_validation_witness :
    (badCfg.min > badCfg.max ∨ badCfg.depth = 0) ∧
      solve badCfg [['a', 'b'], ['b', 'c']] = [] :=
  ⟨by decide, claim_C4_no_validation badCfg [['a', 'b'], ['b', 'c']] (by decide)⟩

/-- Claim C5, counterexample: `is_word_valid` performs no case
normalization of the candidate word: on the box with (lower-cased)
sides `ae` / `b` / `c` / `d` and bounds `[2, 10]`, the word `Ab` is
rejected while its lower-case form `ab` is accepted, so acceptance of a
word is not equivalent to acceptance of its lower-case form. -/
theorem claim_C5_counterexample :
    (['a', 'b'] : Word) = (['A', 'b'] : Word).map asciiLower ∧
      is_word_valid ['A', 'b'] (parse_box ['a', 'e'] ['b'] ['c'] ['d'] 2 10) = false ∧
      is_word_valid ['a', 'b'] (parse_box ['a', 'e'] ['b'] ['c'] ['d'] 2 10) = true := by
  refine ⟨by decide, by decide, by decide⟩

/-- Claim C5, amended: only the box sides are lower-cased (by
`parse_arguments`), the candidate words never are; consequently, when no
side letter is an ASCII capital, any word containing an ASCII capital
letter is rejected by `is_word_valid`. -/
theorem claim_C5_no_case_normalization (args : WArgs) (w : Word) (c : Char)
    (hsides : ∀ p ∈ sides args, ∀ d ∈ p.2, ¬('A' ≤ d ∧ d ≤ 'Z'))
    (hc : c ∈ w) (hA : 'A' ≤ c) (hZ : c ≤ 'Z') :
    is_word_valid w args = false := by
  have hnone : letterSide args c = none := by
    rw [letterSide, List.findSome?_eq_none_iff]
    intro p hp
    simp only [ite_eq_right_iff]
    intro hmem
    exact absurd ⟨hA, hZ⟩ (hsides p hp c hmem)
  unfold is_word_valid
  split_ifs with hlen
  · rfl
  · exact validLoop_eq_false_of_none args hnone w none hc

/-- Claim C5, witness: the word `Ab` contains the capital `A` and is
rejected on the lower-cased box `ae` / `b` / `c` / `d`. -/
theorem claim_C5_no_case_normalization_witness :
    ('A' : Char) ∈ (['A', 'b'] : Word) ∧
      is_word_valid ['A', 'b'] (parse_box ['a', 'e'] ['b'] ['c'] ['d'] 2 10) = false :=
  ⟨by decide, claim_C5_no_case_normalization (parse_box ['a', 'e'] ['b'] ['c'] ['d'] 2 10)
    ['A', 'b'] 'A' (by decide) (by decide) (by decide) (by decide)⟩

/-- Claim C6: every chain the search records is recorded the instant its
accumulated letter set equals the box's full letter set and that branch
is consumed: the recorded chain's letters equal `all_letters`, and no
proper non-empty leading part of it already equals `all_letters` (a
covering chain is never extended by a further word). -/
theorem claim_C6_cover_stops_branch (args : SArgs) (r : Nat) (sw : List Word)
    (chain : Chain) (hmem : chain ∈ (recursive_solve args r sw [] []).2) :
    chainLetters chain = args.all_letters ∧
      ∀ k, 0 < k → k < chain.length → chainLetters (chain.take k) ≠ args.all_letters := by
  rw [recursive_solve_mem args r sw [] [] chain] at hmem
  rcases hmem with hmem | ⟨b, rfl, ext, rfl, hrec⟩
  · cases hmem
  · obtain ⟨-, -, -, -, -, hcov, hpre⟩ :=
      (recExt_iff_conds args chain sw b (chainLetters [])).mp hrec
    rw [chainLetters_nil, Finset.empty_union] at hcov
    exact ⟨hcov.symm, fun k hk0 hklen heq => by
      have := hpre k hk0 hklen
      rw [chainLetters_nil, Finset.empty_union] at this
      exact this heq.symm⟩

/-- Claim C6, witness: the recorded chain `[ab, bc]` covers `{a, b, c}`
exactly at its end, with no covering proper leading part. -/
theorem claim_C6_cover_stops_branch_witness :
    [['a', 'b'], ['b', 'c']] ∈
        (recursive_solve exArgsABC 2 exArgsABC.all_search_words [] []).2 ∧
      (chainLetters [['a', 'b'], ['b', 'c']] = exArgsABC.all_letters ∧
        ∀ k, 0 < k → k < ([['a', 'b'], ['b', 'c']] : Chain).length →
          chainLetters (([['a', 'b'], ['b', 'c']] : Chain).take k) ≠ exArgsABC.all_letters) :=
  ⟨by decide, claim_C6_cover_stops_branch exArgsABC 2 exArgsABC.all_search_words _ (by decide)⟩

/-- Claim C7, counterexample: the candidate filter excludes only the
immediately preceding word (`x != word`), so a word can reappear later
in the same chain: with box `{a, b, c, d}`, legal words `ab`, `bca`,
`bd` and depth 4, the recorded solution `[ab, bca, ab, bd]` contains the
word `ab` at positions 0 and 2. -/
theorem claim_C7_counterexample :
    [['a', 'b'], ['b', 'c', 'a'], ['a', 'b'], ['b', 'd']] ∈
        (recursive_solve exArgsABCD 4 exArgsABCD.all_search_words [] []).2 ∧
      ([['a', 'b'], ['b', 'c', 'a'], ['a', 'b'], ['b', 'd']] : Chain).get? 0 = some ['a', 'b'] ∧
      ([['a', 'b'], ['b', 'c', 'a'], ['a', 'b'], ['b', 'd']] : Chain).get? 2 = some ['a', 'b'] := by
  refine ⟨by decide, by decide, by decide⟩

/-- Claim C7, amended: within any chain the search records, no word
occurs at two consecutive positions (the next-word candidate list
excludes exactly the word just placed, not every earlier word). -/
theorem claim_C7_consecutive_distinct (args : SArgs) (r : Nat) (sw : List Word)
    (chain : Chain) (hmem : chain ∈ (recursive_solve args r sw [] []).2) :
    List.Chain' (fun u v => u ≠ v) chain := by
  rw [recursive_solve_mem args r sw [] [] chain] at hmem
  rcases hmem with hmem | ⟨b, rfl, ext, rfl, hrec⟩
  · cases hmem
  · obtain ⟨-, -, -, -, hchain, -, -⟩ :=
      (recExt_iff_conds args chain sw b (chainLetters [])).mp hrec
    exact hchain.imp (fun _ _ h => h.2.symm)

/-- Claim C7, witness: the recorded chain `[ab, bc]` has distinct
consecutive words. -/
theorem claim_C7_consecutive_distinct_witness :
    [['a', 'b'], ['b', 'c']] ∈
        (recursive_solve exArgsABC 2 exArgsABC.all_search_words [] []).2 ∧
      List.Chain' (fun u v => u ≠ v) [['a', 'b'], ['b', 'c']] :=
  ⟨by decide, claim_C7_consecutive_distinct exArgsABC 2 exArgsABC.all_search_words _ (by decide)⟩

/-- Claim C8: depth monotonicity — with the box, the legal-word list and
the initial search state held fixed, every solution chain returned with
depth budget `d1` is also returned with any depth budget `d2 ≥ d1`. -/
theorem claim_C8_depth_monotonicity (args : SArgs) (sw : List Word) (d1 d2 : Nat)
    (hd : d1 ≤ d2) (chain : Chain)
    (hmem : chain ∈ (recursive_solve args d1 sw [] []).2) :
    chain ∈ (recursive_solve args d2 sw [] []).2 := by
  rw [recursive_solve_mem args d1 sw [] [] chain] at hmem
  rw [recursive_solve_mem args d2 sw [] [] chain]
  rcases hmem with hmem | ⟨b, rfl, ext, rfl, hrec⟩
  · cases hmem
  · obtain ⟨b2, rfl⟩ : ∃ b2, d2 = b2 + 1 := ⟨d2 - 1, by omega⟩
    exact Or.inr ⟨b2, rfl, chain, rfl, recExt_mono args hrec (by omega)⟩

/-- Claim C8, witness: the solution `[ab, bc]` found at depth 2 is still
found at depth 3. -/
theorem claim_C8_depth_monotonicity_witness :
    (2 : Nat) ≤ 3 ∧
      [['a', 'b'], ['b', 'c']] ∈
        (recursive_solve exArgsABC 2 exArgsABC.all_search_words [] []).2 ∧
      [['a', 'b'], ['b', 'c']] ∈
        (recursive_solve exArgsABC 3 exArgsABC.all_search_words [] []).2 :=
  ⟨by decide, by decide,
    claim_C8_depth_monotonicity exArgsABC exArgsABC.all_search_words 2 3 (by decide) _
      (by decide)⟩

/-- Claim C9: filtering is idempotent — applying `trim_dictionary` to a
list it already produced, with the same configuration, returns that list
unchanged (same words, same order). -/
theorem claim_C9_filter_idempotent (dictionary : List Word) (args : WArgs) :
    trim_dictionary (trim_dictionary dictionary args) args =
      trim_dictionary dictionary args := by
  simp [trim_dictionary, List.filter_filter]

/-- Claim C10: when a letter appears on several sides, `is_word_valid`
resolves it to the first side containing it in the fixed order top,
left, bottom, right; the resolution (and hence the filter's verdict) is
a total function of the letter and the four side lists. -/
theorem claim_C10_side_resolution (args : WArgs) (c : Char) :
    letterSide args c =
      if c ∈ args.top then some 't'
      else if c ∈ args.left then some 'l'
      else if c ∈ args.bottom then some 'b'
      else if c ∈ args.right then some 'r'
      else none :=
  letterSide_eq args c
